import Mathlib

set_option linter.unusedVariables false

/-!
Verification of the `amd::legacy_monitor::Monitor` contention protocol
(`src/rocclr/thread/monitor.cpp`, `src/rocclr/thread/monitor.hpp`) against its
natural-language specification.

The monitor state is embedded shallowly: the lock word `contendersList_`, the
successor slot `onDeck_` and the waiter-list head `waitersList_` are natural
numbers (pointer-sized words, bit 0 = LOCK / microlock); intrusive list nodes
live in an explicit heap `Nat → LinkedNode` indexed by node address (0 = NULL).
Operations are translated function by function from the source.  Loops that in
the source spin until another thread changes shared state take an explicit
fuel argument and an interference oracle `env : Nat → MState → MState` applied
between iterations; a compare-and-swap whose success depends on interference
(or on spurious weak-CAS failure) takes an explicit oracle for its outcome.
Semaphore posts and blocking waits are recorded as events.
-/

/-- A node of the intrusive singly linked list
(`details::SimplyLinkedNode<Semaphore*>` in monitor.hpp): `item` is the
address of the queued thread's semaphore, `next` the address of the next node
(0 = NULL). -/
structure LinkedNode where
  item : Nat
  next : Nat
  deriving DecidableEq

/-- Observable side effects of a monitor operation: posting a semaphore,
blocking on a semaphore, an SMT spin-pause hint (`Os::spinPause`), and an OS
scheduler yield (`Thread::yield`). -/
inductive Event where
  | post (sem : Nat)
  | semWait (sem : Nat)
  | pause
  | osYield
  deriving DecidableEq, BEq

/-- State of one `amd::legacy_monitor::Monitor` object together with the node
heap.  `contendersList` is the lock word (bit 0 = LOCK, upper bits = address
of the head contender node), `onDeck` the successor slot (bit 0 = microlock,
upper bits = semaphore address), `waitersList` the address of the head waiter
node (0 = NULL), `owner` the owning thread handle (0 = NULL), `lockCount` the
recursion depth, `recursive` the constructor flag. -/
structure MState where
  contendersList : Nat
  onDeck : Nat
  waitersList : Nat
  heap : Nat → LinkedNode
  owner : Nat
  lockCount : Nat
  recursive : Bool

/-- `static constexpr intptr_t kLockBit = 0x1` (monitor.hpp line 94). -/
def kLockBit : Nat := 1

/-- `static constexpr int kMaxSpinIter = 55` (monitor.hpp line 96). -/
def kMaxSpinIter : Nat := 55

/-- `static constexpr int kMaxReadSpinIter = 50` (monitor.hpp line 97). -/
def kMaxReadSpinIter : Nat := 50

/-- The C++ expression `w & ~kLockBit` (clear bit 0 of a pointer-sized word). -/
def clearLockBit (w : Nat) : Nat := 2 * (w / 2)

/-- `Monitor::Monitor(bool recursive)`: `contendersList_(0), onDeck_(0),
waitersList_(NULL), owner_(NULL), recursive_(recursive)`.  (`lockCount_` is
left uninitialized by the constructor; the model starts it at 0 — it is
written before it is ever read.) -/
def initMonitor (recursive : Bool) : MState :=
  { contendersList := 0, onDeck := 0, waitersList := 0,
    heap := fun _ => ⟨0, 0⟩, owner := 0, lockCount := 0, recursive := recursive }

/-- `Monitor::tryLock` (monitor.cpp lines 313-337).  `t` is the calling
thread (`Thread::current()`, nonzero).  `casOk` is the outcome of the single
`compare_exchange_weak` from the loaded word `ptr` to `ptr | kLockBit`; a weak
CAS may fail under interference or spuriously, and writes nothing on failure.
There is no retry: this is the non-blocking path. -/
def tryLock (s : MState) (t : Nat) (casOk : Bool) : MState × Bool :=
  let ptr := s.contendersList
  if ptr &&& kLockBit ≠ 0 then
    if s.recursive ∧ t = s.owner then
      ({ s with lockCount := s.lockCount + 1 }, true)
    else
      (s, false)
  else if casOk then
    ({ s with contendersList := ptr ||| kLockBit, owner := t, lockCount := 1 }, true)
  else
    (s, false)

/-- A heap chain: `Chain h p l` states that starting from pointer `p` and
following `next` fields, the (finite, null-terminated) chain of node
addresses is exactly `l`.  Node addresses are nonzero and 2-byte aligned
(bit 0 clear), as guaranteed by the layout of `LinkedNode` in the source. -/
def Chain (h : Nat → LinkedNode) : Nat → List Nat → Prop
  | p, [] => p = 0
  | p, a :: l => p = a ∧ a ≠ 0 ∧ a % 2 = 0 ∧ Chain h (h a).next l

/-- The identity interference oracle: no other thread touches the monitor
between loop iterations. -/
def idEnv : Nat → MState → MState := fun _ s => s

/-- The inner CAS loop of `Monitor::finishUnlock` (monitor.cpp lines
167-188): read the contenders head; if it is 0 there is nothing to do; if its
LOCK bit is set somebody reacquired the lock, give up (`head = 0`);
otherwise CAS the head to `head->next` (in the sequential model the CAS
succeeds at once).  Returns the new state and the popped node address
(0 = none). -/
def popContender (s : MState) : MState × Nat :=
  let head := s.contendersList
  if head = 0 then (s, 0)
  else if head &&& kLockBit ≠ 0 then (s, 0)
  else ({ s with contendersList := (s.heap head).next }, head)

/-- `Monitor::finishUnlock` (monitor.cpp lines 152-212).  The outer loop gets
explicit fuel; `env` is the interference applied by other threads between the
`onDeck` store and the re-read of `contendersList` (the only window the loop
re-checks).  Grabbing the microlock is the CAS of `onDeck` from 0 to
`0 | kLockBit`; if `onDeck ≠ 0` it fails and the call returns.  After popping,
the chosen semaphore (or 0) is stored to `onDeck`, releasing the microlock; a
non-null semaphore is posted and the call returns. -/
def finishUnlock (env : Nat → MState → MState) : Nat → MState → MState × List Event
  | 0, s => (s, [])
  | fuel + 1, s =>
    if s.onDeck ≠ 0 then
      (s, [])
    else
      let p := popContender { s with onDeck := kLockBit }
      let chosen := p.2
      let sem := if chosen ≠ 0 then (p.1.heap chosen).item else 0
      let s3 := { p.1 with onDeck := sem }
      if sem ≠ 0 then
        (s3, [Event.post sem])
      else
        let s4 := env fuel s3
        if s4.contendersList = 0 ∨ s4.contendersList &&& kLockBit ≠ 0 then
          (s4, [])
        else
          finishUnlock env fuel s4

/-- The non-recursive tail of `Monitor::unlock` (monitor.cpp lines 358-396):
clear the owner, CAS-clear the LOCK bit (sequentially a single success),
then either post the on-deck semaphore (if one is installed and unmarked),
or return if the contenders list is empty or the lock was retaken, or run
`finishUnlock`. -/
def unlockSlow (env : Nat → MState → MState) (fuel : Nat) (s : MState) :
    MState × List Event :=
  let s1 := { s with owner := 0 }
  let s2 := { s1 with contendersList := clearLockBit s1.contendersList }
  if s2.onDeck ≠ 0 then
    (s2, if s2.onDeck &&& kLockBit = 0 then [Event.post s2.onDeck] else [])
  else
    let head := s2.contendersList
    if head = 0 ∨ head &&& kLockBit ≠ 0 then (s2, [])
    else finishUnlock env fuel s2

/-- `Monitor::unlock` (monitor.cpp lines 350-396).  For a recursive monitor
`--lockCount_` is evaluated and, while it stays positive, the call returns at
once; for a non-recursive monitor the `&&` short-circuits and `lockCount_` is
not even decremented. -/
def unlock (env : Nat → MState → MState) (fuel : Nat) (s : MState) :
    MState × List Event :=
  if s.recursive then
    let s0 := { s with lockCount := s.lockCount - 1 }
    if 0 < s0.lockCount then (s0, []) else unlockSlow env fuel s0
  else
    unlockSlow env fuel s

/-- The event list of a single unlock: no blocking operation and at most one
semaphore post. -/
def PostOk (r : MState × List Event) : Prop :=
  r.2.length ≤ 1 ∧ ∀ e ∈ r.2, ∃ a, e = Event.post a

/-- Iterated `lock` by one thread in the sequential model: each `lock`
(monitor.cpp lines 339-348) is its `tryLock` fast path; in the balanced
recursive scenario below every `tryLock` succeeds, so the blocking
`finishLock` slow path is never entered. -/
def lockN (t : Nat) : Nat → MState → MState
  | 0, s => s
  | n + 1, s => lockN t n (tryLock s t true).1

/-- One sequential `unlock` (no interference; fuel 1 covers the sequential
successor selection). -/
def unlockSeq (s : MState) : MState := (unlock idEnv 1 s).1

/-- Iterated sequential `unlock`. -/
def unlockN : Nat → MState → MState
  | 0, s => s
  | n + 1, s => unlockN n (unlockSeq s)

/-- The state of a recursive monitor held `n` times by thread `t`, with no
contenders, waiters or on-deck successor. -/
def ownedBase (t n : Nat) : MState :=
  { contendersList := 1, onDeck := 0, waitersList := 0,
    heap := fun _ => ⟨0, 0⟩, owner := t, lockCount := n, recursive := true }

/-- `Monitor::notify` (monitor.cpp lines 283-303).  Precondition (assert):
the caller owns the monitor.  If the waiter list is empty this is a no-op;
otherwise the head waiter is dequeued (`waitersList_ = waiter->next()`,
read before the node is relinked) and pushed onto the contenders stack with
the same CAS protocol as the `finishLock` push but preserving the LOCK bit:
`waiter->setNext(word & ~kLockBit)`, new word = `waiter | kLockBit`.  In the
sequential model the CAS succeeds on its first iteration. -/
def notify (s : MState) : MState :=
  let w := s.waitersList
  if w = 0 then s
  else
    let node := s.heap w
    let word := s.contendersList
    { s with waitersList := node.next,
             heap := Function.update s.heap w ⟨node.item, clearLockBit word⟩,
             contendersList := w ||| kLockBit }

/-- `Monitor::notifyAll` (monitor.cpp lines 305-311):
`while (waitersList_ != NULL) notify();` with explicit fuel, one unit per
loop iteration; `none` when the fuel runs out before the list empties. -/
def notifyAll : Nat → MState → Option MState
  | 0, s => if s.waitersList = 0 then some s else none
  | f + 1, s => if s.waitersList = 0 then some s else notifyAll f (notify s)

/-- A quiescent monitor state used as a concrete input: thread 2 holds the
lock and one waiter node (address 4, semaphore 9) is queued. -/
def oneWaiterState : MState :=
  { contendersList := 1, onDeck := 0, waitersList := 4,
    heap := Function.update (fun _ => ⟨0, 0⟩) 4 ⟨9, 0⟩,
    owner := 2, lockCount := 1, recursive := false }

/-- A quiescent state with two queued waiters: node 2 (semaphore 20) in
front of node 4 (semaphore 21); thread 6 holds the lock, no contenders. -/
def twoWaiterState : MState :=
  { contendersList := 1, onDeck := 0, waitersList := 2,
    heap := Function.update (Function.update (fun _ => ⟨0, 0⟩) 2 ⟨20, 4⟩) 4 ⟨21, 0⟩,
    owner := 6, lockCount := 1, recursive := false }

/-- The spin loop of `Monitor::trySpinLock` (monitor.cpp lines 44-56),
indexed by the loop counter `s` counting down from `kMaxSpinIter`.  Each
iteration issues `Os::spinPause()` while the counter is at least
`kMaxSpinIter - kMaxReadSpinIter` and `Thread::yield()` below that, then, if
the lock word shows unlocked, attempts `tryLock` and returns its result
immediately.  `env` is the interference applied at the start of each
iteration; `cas k` resolves the CAS of the `tryLock` attempt at counter
`k`. -/
def spinLoop (env : Nat → MState → MState) (cas : Nat → Bool) (t : Nat) :
    Nat → MState → MState × Bool × List Event
  | 0, s => (s, false, [])
  | k + 1, s =>
    let s1 := env (k + 1) s
    let ev := if k + 1 ≥ kMaxSpinIter - kMaxReadSpinIter then Event.pause
              else Event.osYield
    if s1.contendersList &&& kLockBit = 0 then
      let r := tryLock s1 t (cas (k + 1))
      (r.1, r.2, [ev])
    else
      let r := spinLoop env cas t k s1
      (r.1, r.2.1, ev :: r.2.2)

/-- `Monitor::trySpinLock` (monitor.cpp lines 39-60): first `tryLock` (its
CAS resolved by `cas 0`), then up to `kMaxSpinIter` spin iterations. -/
def trySpinLock (env : Nat → MState → MState) (cas : Nat → Bool) (t : Nat)
    (s : MState) : MState × Bool × List Event :=
  let r := tryLock s t (cas 0)
  if r.2 then (r.1, true, [])
  else spinLoop env cas t kMaxSpinIter r.1

/-- The prefix of `Monitor::wait` (monitor.cpp lines 214-229) up to the
`unlock` call: reset the suspend semaphore `sem`, link a fresh stack node at
address `nodeAddr` holding it to the front of the waiter list, save
`lockCount_` and set it to 1 so the following unlock fully releases.
Returns the prepared state and the saved count. -/
def waitPrepare (s : MState) (sem nodeAddr : Nat) : MState × Nat :=
  ({ s with heap := Function.update s.heap nodeAddr ⟨sem, s.waitersList⟩,
            waitersList := nodeAddr,
            lockCount := 1 }, s.lockCount)

/-- The first park loop of `Monitor::wait` (lines 235-250): spin (pause /
yield / `timedWait(10)`) until `onDeck_ & ~kLockBit` equals this thread's
suspend semaphore.  Fuel bounds the loop; `env` is the interference applied
between iterations. -/
def waitPark (env : Nat → MState → MState) (sem : Nat) :
    Nat → MState → Option MState
  | 0, s => if clearLockBit s.onDeck = sem then some s else none
  | f + 1, s =>
    if clearLockBit s.onDeck = sem then some s
    else waitPark env sem f (env f s)

/-- The reacquisition loop of `Monitor::wait` (lines 252-275): `trySpinLock`
(with sleeping in between) until the lock is taken. -/
def waitAcquire (env : Nat → MState → MState) (cas : Nat → Bool) (t : Nat) :
    Nat → MState → Option MState
  | 0, _ => none
  | f + 1, s =>
    let r := trySpinLock env cas t s
    if r.2.1 then some r.1
    else waitAcquire env cas t f (env f r.1)

/-- `Monitor::wait` (monitor.cpp lines 214-281): prepare, `unlock`, park
until on-deck, reacquire, then restore the saved `lockCount_` and clear
`onDeck_`.  `none` when the fuel runs out while parked (the real thread
would still be blocked). -/
def waitModel (env : Nat → MState → MState) (cas : Nat → Bool)
    (t sem nodeAddr fuel : Nat) (s : MState) : Option MState :=
  let p := waitPrepare s sem nodeAddr
  let u := (unlock env fuel p.1).1
  match waitPark env sem fuel u with
  | none => none
  | some s1 =>
    match waitAcquire env cas t fuel s1 with
    | none => none
    | some s2 => some { s2 with lockCount := p.2, onDeck := 0 }

/-- A monitor held 5 times recursively by thread 3, about to `wait` with
suspend semaphore 2 and stack node address 4. -/
def waitState0 : MState :=
  { contendersList := 1, onDeck := 0, waitersList := 0,
    heap := fun _ => ⟨0, 0⟩, owner := 3, lockCount := 5, recursive := true }

/-- Interference for the wait witness: another thread installs semaphore 2
as the on-deck successor. -/
def waitEnv0 : Nat → MState → MState := fun _ x => { x with onDeck := 2 }

/-- The quiescent-state invariant: the owner is non-NIL exactly when the
LOCK bit of the lock word is set; the waiter-list head and every `next`
field in the heap are even (node addresses are at least 2-byte aligned and
every store into a `next` field masks the LOCK bit off first). -/
def MonInv (s : MState) : Prop :=
  (s.owner ≠ 0 ↔ s.contendersList % 2 = 1) ∧
  s.waitersList % 2 = 0 ∧
  ∀ a, (s.heap a).next % 2 = 0

/-- One complete monitor operation between quiescent states: a `tryLock`
attempt by any nonzero thread, an `unlock` by the owner, a `notify` /
`notifyAll` by the owner, the release phase of a `wait` by the owner
(prepare + internal unlock, after which the caller is parked), or the final
phase of a `wait` that has just reacquired the lock (restore the saved
count, clear on-deck). -/
inductive Step : MState → MState → Prop
  | tryLockStep (s : MState) (t : Nat) (casOk : Bool) (ht : t ≠ 0) :
      Step s (tryLock s t casOk).1
  | unlockStep (s : MState) (t fuel : Nat) (ht : t ≠ 0)
      (hown : s.owner = t) (hlock : s.contendersList &&& kLockBit ≠ 0) :
      Step s (unlock idEnv fuel s).1
  | notifyStep (s : MState) (t : Nat) (ht : t ≠ 0) (hown : s.owner = t)
      (hlock : s.contendersList &&& kLockBit ≠ 0) :
      Step s (notify s)
  | notifyAllStep (s s' : MState) (t fuel : Nat) (ht : t ≠ 0)
      (hown : s.owner = t) (hlock : s.contendersList &&& kLockBit ≠ 0)
      (h : notifyAll fuel s = some s') : Step s s'
  | waitParkStep (s : MState) (t sem nodeAddr fuel : Nat) (ht : t ≠ 0)
      (hown : s.owner = t) (hlock : s.contendersList &&& kLockBit ≠ 0)
      (hna : nodeAddr ≠ 0) (hne : nodeAddr % 2 = 0) :
      Step s (unlock idEnv fuel (waitPrepare s sem nodeAddr).1).1
  | waitResumeStep (s : MState) (t saved : Nat) (ht : t ≠ 0)
      (hown : s.owner = t) :
      Step s { s with lockCount := saved, onDeck := 0 }

/-- States reachable from a freshly constructed monitor by complete
operations. -/
inductive Reach : MState → Prop
  | init (recursive : Bool) : Reach (initMonitor recursive)
  | step {s s' : MState} : Reach s → Step s s' → Reach s'

/-- A locked, non-recursive monitor owned by thread 2, used to exercise the
spin loop. -/
def spinState0 : MState :=
  { contendersList := 1, onDeck := 0, waitersList := 0,
    heap := fun _ => ⟨0, 0⟩, owner := 2, lockCount := 1, recursive := false }

/-- The event list of a full `kMaxSpinIter`-iteration spin with counter
starting at `k`: pauses for the counters down to 5, yields below. -/
def fullSpinEvents (k : Nat) : List Event :=
  List.replicate (k - 4) Event.pause ++ List.replicate (min 4 k) Event.osYield

/-- Interference that keeps the lock word locked (word 1) at every
iteration. -/
def envLocked : Nat → MState → MState := fun _ x => { x with contendersList := 1 }

theorem and_one_eq_mod (w : Nat) : w &&& 1 = w % 2 := Nat.and_one_is_mod w

theorem lor_one_of_even (w : Nat) (h : w % 2 = 0) : w ||| 1 = w + 1 := by
  apply Nat.eq_of_testBit_eq
  intro i
  cases i with
  | zero =>
    simp only [Nat.testBit_zero, Nat.testBit_or]
    have h1 : (w + 1) % 2 = 1 := by omega
    simp [h, h1]
  | succ j =>
    simp only [Nat.testBit_succ, Nat.or_div_two]
    have h2 : (w + 1) / 2 = w / 2 := by omega
    simp [h2]

theorem clearLockBit_lor_one (w : Nat) (h : w % 2 = 0) :
    clearLockBit (w ||| 1) = w := by
  rw [lor_one_of_even w h]
  unfold clearLockBit
  omega

theorem clearLockBit_of_even (w : Nat) (h : w % 2 = 0) : clearLockBit w = w := by
  unfold clearLockBit
  omega

theorem chain_congr {h h' : Nat → LinkedNode} {l : List Nat} :
    ∀ {p : Nat}, Chain h p l → (∀ a ∈ l, (h' a).next = (h a).next) →
    Chain h' p l := by
  induction l with
  | nil => intro p hc _; exact hc
  | cons a l ih =>
    intro p hc hagree
    obtain ⟨hp, ha, hal, hrest⟩ := hc
    refine ⟨hp, ha, hal, ?_⟩
    rw [hagree a (List.mem_cons_self a l)]
    exact ih hrest fun b hb => hagree b (List.mem_cons_of_mem a hb)

/-- C1: `Monitor::tryLock` behaves exactly as specified: with the LOCK bit
set it succeeds (incrementing `lockCount`) precisely for a recursive monitor
whose owner is the calling thread, and fails otherwise without touching
anything; with the LOCK bit clear it performs a single CAS of the loaded word
to `word | kLockBit` and on success sets `owner` to the calling thread and
`lockCount` to 1, while on CAS failure it returns false. -/
theorem tryLock_spec (s : MState) (t : Nat) (casOk : Bool) (ht : t ≠ 0) :
    (s.contendersList &&& kLockBit ≠ 0 → s.recursive = true → t = s.owner →
      tryLock s t casOk = ({ s with lockCount := s.lockCount + 1 }, true)) ∧
    (s.contendersList &&& kLockBit ≠ 0 → ¬(s.recursive = true ∧ t = s.owner) →
      tryLock s t casOk = (s, false)) ∧
    (s.contendersList &&& kLockBit = 0 → casOk = true →
      tryLock s t casOk =
        ({ s with contendersList := s.contendersList ||| kLockBit,
                  owner := t, lockCount := 1 }, true)) ∧
    (s.contendersList &&& kLockBit = 0 → casOk = false →
      tryLock s t casOk = (s, false)) := by
  refine ⟨?_, ?_, ?_, ?_⟩
  · intro hbit hrec hown
    simp [tryLock, hbit, hrec, hown]
  · intro hbit hnot
    simp only [tryLock, if_pos hbit]
    rw [if_neg]
    exact fun hc => hnot ⟨hc.1, hc.2⟩
  · intro hbit hcas
    simp [tryLock, hbit, hcas]
  · intro hbit hcas
    simp [tryLock, hbit, hcas]

theorem tryLock_spec_witness :
    tryLock (initMonitor false) 3 true =
      ({ initMonitor false with contendersList := 1, owner := 3, lockCount := 1 }, true) := by
  have h := tryLock_spec (initMonitor false) 3 true (by decide)
  have h3 := h.2.2.1 (by decide) rfl
  simpa [initMonitor, kLockBit] using h3

/-- C9: whenever `tryLock` returns false, the monitor state is bit-for-bit
unchanged: `contendersList`, `onDeck`, `waitersList`, the node heap, `owner`
and `lockCount` all hold their previous values. -/
theorem tryLock_frame_on_failure (s : MState) (t : Nat) (casOk : Bool)
    (h : (tryLock s t casOk).2 = false) : (tryLock s t casOk).1 = s := by
  unfold tryLock at h ⊢
  by_cases hbit : s.contendersList &&& kLockBit ≠ 0
  · simp only [if_pos hbit] at h ⊢
    by_cases hro : s.recursive ∧ t = s.owner
    · simp [if_pos hro] at h
    · simp [if_neg hro]
  · simp only [if_neg hbit] at h ⊢
    cases casOk with
    | true => simp at h
    | false => simp

theorem tryLock_frame_on_failure_witness :
    (tryLock { initMonitor false with contendersList := 1, owner := 7, lockCount := 1 }
        3 true).1 =
      { initMonitor false with contendersList := 1, owner := 7, lockCount := 1 } := by
  apply tryLock_frame_on_failure
  decide

/-- C10: a successful `tryLock` from a lock word with the LOCK bit clear only
sets the LOCK bit: every upper bit of the lock word is unchanged, the node
heap is untouched, and any contender-node chain still hanging off the word
(the transient unlocked-with-chain state after an unlock) is preserved. -/
theorem tryLock_preserves_upper_bits (s : MState) (t : Nat)
    (hclear : s.contendersList &&& kLockBit = 0) :
    (tryLock s t true).2 = true ∧
    (tryLock s t true).1.contendersList = s.contendersList ||| kLockBit ∧
    (∀ i, 1 ≤ i →
      (tryLock s t true).1.contendersList.testBit i = s.contendersList.testBit i) ∧
    (tryLock s t true).1.heap = s.heap ∧
    (∀ l, Chain s.heap (clearLockBit s.contendersList) l →
      Chain (tryLock s t true).1.heap (clearLockBit (tryLock s t true).1.contendersList) l) := by
  have heven : s.contendersList % 2 = 0 := by
    have := and_one_eq_mod s.contendersList
    simp only [kLockBit] at hclear
    omega
  have hred : tryLock s t true =
      ({ s with contendersList := s.contendersList ||| kLockBit,
                owner := t, lockCount := 1 }, true) := by
    unfold tryLock
    simp [hclear]
  refine ⟨by rw [hred], by rw [hred], ?_, by rw [hred], ?_⟩
  · intro i hi
    rw [hred]
    simp only [kLockBit]
    obtain ⟨j, rfl⟩ : ∃ j, i = j + 1 := ⟨i - 1, by omega⟩
    simp [Nat.testBit_succ, Nat.or_div_two]
  · intro l hchain
    rw [hred]
    simp only [kLockBit]
    rw [clearLockBit_lor_one s.contendersList heven]
    rw [clearLockBit_of_even s.contendersList heven] at hchain
    exact hchain

theorem tryLock_preserves_upper_bits_witness :
    (tryLock { initMonitor false with contendersList := 6 } 3 true).1.contendersList = 7 := by
  have h := tryLock_preserves_upper_bits { initMonitor false with contendersList := 6 } 3
    (by decide)
  rw [h.2.1]
  decide

theorem postOk_nil (s : MState) : PostOk (s, []) := by simp [PostOk]

theorem postOk_single (s : MState) (a : Nat) : PostOk (s, [Event.post a]) := by
  simp [PostOk]

theorem finishUnlock_postOk (env : Nat → MState → MState) :
    ∀ (fuel : Nat) (s : MState), PostOk (finishUnlock env fuel s) := by
  intro fuel
  induction fuel with
  | zero => intro s; exact postOk_nil s
  | succ n ih =>
    intro s
    rw [finishUnlock]
    dsimp only
    repeat' split
    all_goals first
      | exact postOk_nil _
      | exact postOk_single _ _
      | exact ih _

theorem unlockSlow_postOk (env : Nat → MState → MState) (fuel : Nat)
    (s : MState) : PostOk (unlockSlow env fuel s) := by
  unfold unlockSlow
  dsimp only
  repeat' split
  all_goals first
    | exact postOk_nil _
    | exact postOk_single _ _
    | exact finishUnlock_postOk env fuel _

/-- C2: one call to `Monitor::unlock` issues at most one semaphore post in
total — across the fast path (posting the installed on-deck semaphore) and
the whole `finishUnlock` successor-selection loop — and never performs a
blocking semaphore wait, for every interference pattern and every fuel. -/
theorem unlock_posts_at_most_one (env : Nat → MState → MState) (fuel : Nat)
    (s : MState) :
    (unlock env fuel s).2.length ≤ 1 ∧
    ∀ e ∈ (unlock env fuel s).2, ∃ a, e = Event.post a := by
  suffices h : PostOk (unlock env fuel s) from h
  unfold unlock
  dsimp only
  repeat' split
  all_goals first
    | exact postOk_nil _
    | exact unlockSlow_postOk env fuel _

theorem tryLock_ownedBase (t n : Nat) :
    tryLock (ownedBase t n) t true = (ownedBase t (n + 1), true) := by
  simp [tryLock, ownedBase, kLockBit]

theorem lockN_ownedBase (t : Nat) :
    ∀ n m, lockN t n (ownedBase t m) = ownedBase t (m + n) := by
  intro n
  induction n with
  | zero => intro m; rfl
  | succ k ih =>
    intro m
    rw [lockN, tryLock_ownedBase]
    rw [show (ownedBase t (m + 1), true).1 = ownedBase t (m + 1) from rfl]
    rw [ih (m + 1)]
    congr 1
    omega

theorem tryLock_init (t : Nat) :
    tryLock (initMonitor true) t true = (ownedBase t 1, true) := by
  simp [tryLock, initMonitor, ownedBase, kLockBit]

theorem lockN_init (t N : Nat) (hN : 1 ≤ N) :
    lockN t N (initMonitor true) = ownedBase t N := by
  obtain ⟨k, rfl⟩ : ∃ k, N = k + 1 := ⟨N - 1, by omega⟩
  rw [lockN, tryLock_init]
  rw [show (ownedBase t 1, true).1 = ownedBase t 1 from rfl]
  rw [lockN_ownedBase]
  congr 1
  omega

theorem unlockSeq_ownedBase_pos (t n : Nat) (hn : 2 ≤ n) :
    unlockSeq (ownedBase t n) = ownedBase t (n - 1) := by
  have h : 0 < n - 1 := by omega
  simp [unlockSeq, unlock, ownedBase, h]

theorem unlockSeq_ownedBase_one (t : Nat) :
    unlockSeq (ownedBase t 1) = initMonitor true := by
  simp [unlockSeq, unlock, unlockSlow, ownedBase, initMonitor, clearLockBit]

theorem unlockN_ownedBase (t : Nat) :
    ∀ k N, k ≤ N - 1 → 1 ≤ N → unlockN k (ownedBase t N) = ownedBase t (N - k) := by
  intro k
  induction k with
  | zero => intro N _ _; rfl
  | succ j ih =>
    intro N hk hN
    rw [unlockN, unlockSeq_ownedBase_pos t N (by omega), ih (N - 1) (by omega) (by omega)]
    congr 1
    omega

theorem unlockN_full (t : Nat) :
    ∀ k, unlockN (k + 1) (ownedBase t (k + 1)) = initMonitor true := by
  intro k
  induction k with
  | zero => rw [unlockN, unlockSeq_ownedBase_one]; rfl
  | succ j ih =>
    rw [unlockN, unlockSeq_ownedBase_pos t (j + 2) (by omega)]
    exact ih

/-- C4: for a recursive monitor, N nested `lock` calls by one thread (each
reducing to a successful `tryLock`) followed by N `unlock` calls leave the
monitor unlocked with owner NIL; after the first N-1 unlocks the LOCK bit is
still set, the owner is unchanged and `lockCount` equals the remaining
depth. -/
theorem recursive_lock_unlock_balance (t N : Nat) (ht : t ≠ 0) (hN : 1 ≤ N) :
    (∀ k, k < N → (tryLock (lockN t k (initMonitor true)) t true).2 = true) ∧
    (∀ k, k ≤ N - 1 →
      (unlockN k (lockN t N (initMonitor true))).contendersList &&& kLockBit ≠ 0 ∧
      (unlockN k (lockN t N (initMonitor true))).owner = t ∧
      (unlockN k (lockN t N (initMonitor true))).lockCount = N - k) ∧
    (unlockN N (lockN t N (initMonitor true))).contendersList &&& kLockBit = 0 ∧
    (unlockN N (lockN t N (initMonitor true))).owner = 0 := by
  refine ⟨?_, ?_, ?_, ?_⟩
  · intro k hk
    cases k with
    | zero =>
      rw [show lockN t 0 (initMonitor true) = initMonitor true from rfl, tryLock_init]
    | succ j =>
      rw [lockN_init t (j + 1) (by omega), tryLock_ownedBase]
  · intro k hk
    rw [lockN_init t N hN, unlockN_ownedBase t k N hk hN]
    refine ⟨by simp [ownedBase, kLockBit], rfl, rfl⟩
  · obtain ⟨k, rfl⟩ : ∃ k, N = k + 1 := ⟨N - 1, by omega⟩
    rw [lockN_init t (k + 1) hN, unlockN_full t k]
    simp [initMonitor, kLockBit]
  · obtain ⟨k, rfl⟩ : ∃ k, N = k + 1 := ⟨N - 1, by omega⟩
    rw [lockN_init t (k + 1) hN, unlockN_full t k]
    rfl

theorem recursive_lock_unlock_balance_witness :
    (unlockN 2 (lockN 5 3 (initMonitor true))).lockCount = 1 ∧
    (unlockN 2 (lockN 5 3 (initMonitor true))).owner = 5 ∧
    (unlockN 3 (lockN 5 3 (initMonitor true))).owner = 0 := by
  have h := recursive_lock_unlock_balance 5 3 (by decide) (by decide)
  exact ⟨(h.2.1 2 (by decide)).2.2, (h.2.1 2 (by decide)).2.1, h.2.2.2⟩

/-- C5: when the caller owns the monitor, `notify` on an empty waiter list
changes nothing; otherwise it removes exactly the head node from the waiter
list and pushes that node onto the contenders stack: the new lock word is
`waiter | kLockBit`, the waiter's `next` pointer becomes the previous word
with the LOCK bit masked off, and no other field (or heap cell) changes. -/
theorem notify_spec (s : MState) (t : Nat) (ht : t ≠ 0) (hown : s.owner = t)
    (hlock : s.contendersList &&& kLockBit ≠ 0) :
    (s.waitersList = 0 → notify s = s) ∧
    (s.waitersList ≠ 0 →
      (notify s).waitersList = (s.heap s.waitersList).next ∧
      (notify s).contendersList = s.waitersList ||| kLockBit ∧
      ((notify s).heap s.waitersList).next = clearLockBit s.contendersList ∧
      ((notify s).heap s.waitersList).item = (s.heap s.waitersList).item ∧
      (∀ a, a ≠ s.waitersList → (notify s).heap a = s.heap a) ∧
      (notify s).owner = s.owner ∧ (notify s).onDeck = s.onDeck ∧
      (notify s).lockCount = s.lockCount ∧ (notify s).recursive = s.recursive) := by
  constructor
  · intro h0
    simp [notify, h0]
  · intro hne
    refine ⟨?_, ?_, ?_, ?_, ?_, ?_, ?_, ?_, ?_⟩
    · simp [notify, hne]
    · simp [notify, hne]
    · simp [notify, hne, Function.update]
    · simp [notify, hne, Function.update]
    · intro a ha
      simp [notify, hne, Function.update, ha]
    · simp [notify, hne]
    · simp [notify, hne]
    · simp [notify, hne]
    · simp [notify, hne]

theorem notify_spec_witness :
    (notify oneWaiterState).contendersList = 5 ∧
    (notify oneWaiterState).waitersList = 0 ∧
    ((notify oneWaiterState).heap 4).next = 0 := by
  have h := (notify_spec oneWaiterState 2 (by decide) rfl (by decide)).2 (by decide)
  refine ⟨?_, ?_, ?_⟩
  · rw [h.2.1]
    decide
  · rw [h.1]
    simp [oneWaiterState, Function.update]
  · rw [show (4 : Nat) = oneWaiterState.waitersList from rfl, h.2.2.1]
    decide

theorem notify_waiters_chain {s : MState} {a : Nat} {l c : List Nat}
    (hw : Chain s.heap s.waitersList (a :: l))
    (hc : Chain s.heap (clearLockBit s.contendersList) c)
    (hnd : ((a :: l) ++ c).Nodup) :
    Chain (notify s).heap (notify s).waitersList l ∧
    Chain (notify s).heap (clearLockBit (notify s).contendersList) (a :: c) ∧
    (notify s).owner = s.owner ∧ (notify s).onDeck = s.onDeck ∧
    (notify s).lockCount = s.lockCount ∧ (notify s).recursive = s.recursive := by
  obtain ⟨hpa, ha0, hae, hrest⟩ := hw
  have hne : s.waitersList ≠ 0 := by rw [hpa]; exact ha0
  have hmem : a ∉ l ∧ a ∉ c := by
    simp only [List.cons_append, List.nodup_cons, List.mem_append] at hnd
    exact ⟨fun h => hnd.1 (Or.inl h), fun h => hnd.1 (Or.inr h)⟩
  simp only [notify, if_neg hne]
  rw [hpa]
  refine ⟨?_, ?_, ?_, ?_, ?_, ?_⟩
  · exact chain_congr hrest fun b hb => by
      have hba : b ≠ a := fun h => hmem.1 (h ▸ hb)
      simp [Function.update, hba]
  · simp only [kLockBit]
    rw [clearLockBit_lor_one a hae]
    refine ⟨rfl, ha0, hae, ?_⟩
    rw [Function.update_same]
    exact chain_congr hc fun b hb => by
      have hba : b ≠ a := fun h => hmem.2 (h ▸ hb)
      simp [Function.update, hba]
  · trivial
  · trivial
  · trivial
  · trivial

theorem notifyAll_chain :
    ∀ (l : List Nat) (s : MState) (c : List Nat),
      Chain s.heap s.waitersList l →
      Chain s.heap (clearLockBit s.contendersList) c →
      (l ++ c).Nodup →
      ∃ s', notifyAll l.length s = some s' ∧ s'.waitersList = 0 ∧
        Chain s'.heap (clearLockBit s'.contendersList) (l.reverse ++ c) := by
  intro l
  induction l with
  | nil =>
    intro s c hw hc hnd
    have h0 : s.waitersList = 0 := hw
    exact ⟨s, by simp [notifyAll, h0], h0, by simpa using hc⟩
  | cons a l ih =>
    intro s c hw hc hnd
    have ha0 : s.waitersList ≠ 0 := by rw [hw.1]; exact hw.2.1
    obtain ⟨hl2, hc2, _, _, _, _⟩ := notify_waiters_chain hw hc hnd
    have hnd2 : (l ++ (a :: c)).Nodup := by
      have hperm : (a :: (l ++ c)).Nodup := by simpa using hnd
      exact (List.perm_middle.nodup_iff).2 hperm
    obtain ⟨s', h1, h2, h3⟩ := ih (notify s) (a :: c) hl2 hc2 hnd2
    refine ⟨s', ?_, h2, ?_⟩
    · rw [show (a :: l).length = l.length + 1 from rfl, notifyAll, if_neg ha0]
      exact h1
    · simpa using h3

/-- C7: `notifyAll` repeatedly invokes `notify` until the waiter list is
empty; on an empty waiter list it is a no-op, and for a waiter list holding
the chain `l` it terminates within `l.length` iterations, leaving the waiter
list empty and every former waiter node pushed onto the contenders chain (in
reversed order, in front of the previous contenders). -/
theorem notifyAll_moves_all_waiters (s : MState) (l c : List Nat)
    (hw : Chain s.heap s.waitersList l)
    (hc : Chain s.heap (clearLockBit s.contendersList) c)
    (hnd : (l ++ c).Nodup) :
    (∀ fuel, s.waitersList = 0 → notifyAll fuel s = some s) ∧
    (∃ s', notifyAll l.length s = some s' ∧ s'.waitersList = 0 ∧
      Chain s'.heap (clearLockBit s'.contendersList) (l.reverse ++ c)) := by
  constructor
  · intro fuel h0
    cases fuel <;> simp [notifyAll, h0]
  · exact notifyAll_chain l s c hw hc hnd

theorem notifyAll_moves_all_waiters_witness :
    ∃ s', notifyAll 2 twoWaiterState = some s' ∧ s'.waitersList = 0 ∧
      Chain s'.heap (clearLockBit s'.contendersList) [4, 2] := by
  have h := (notifyAll_moves_all_waiters twoWaiterState [2, 4] []
    (by simp [Chain, twoWaiterState, Function.update])
    (by simp [Chain, twoWaiterState, clearLockBit])
    (by decide)).2
  simpa using h

theorem tryLock_true_owner (s : MState) (t : Nat) (c : Bool)
    (h : (tryLock s t c).2 = true) : (tryLock s t c).1.owner = t := by
  unfold tryLock at h ⊢
  by_cases hbit : s.contendersList &&& kLockBit ≠ 0
  · simp only [if_pos hbit] at h ⊢
    by_cases hro : s.recursive ∧ t = s.owner
    · simp only [if_pos hro]
      exact hro.2.symm
    · simp [if_neg hro] at h
  · simp only [if_neg hbit] at h ⊢
    cases c with
    | true => rfl
    | false => simp at h

theorem spinLoop_true_owner (env : Nat → MState → MState) (cas : Nat → Bool)
    (t : Nat) : ∀ (k : Nat) (s : MState),
    (spinLoop env cas t k s).2.1 = true → (spinLoop env cas t k s).1.owner = t := by
  intro k
  induction k with
  | zero => intro s h; simp [spinLoop] at h
  | succ n ih =>
    intro s h
    rw [spinLoop] at h ⊢
    dsimp only at h ⊢
    by_cases hb : (env (n + 1) s).contendersList &&& kLockBit = 0
    · simp only [if_pos hb] at h ⊢
      exact tryLock_true_owner _ _ _ h
    · simp only [if_neg hb] at h ⊢
      exact ih _ h

theorem trySpinLock_true_owner (env : Nat → MState → MState) (cas : Nat → Bool)
    (t : Nat) (s : MState) (h : (trySpinLock env cas t s).2.1 = true) :
    (trySpinLock env cas t s).1.owner = t := by
  unfold trySpinLock at h ⊢
  by_cases h0 : (tryLock s t (cas 0)).2 = true
  · simp only [if_pos h0] at h ⊢
    exact tryLock_true_owner _ _ _ h0
  · simp only [if_neg h0] at h ⊢
    exact spinLoop_true_owner env cas t kMaxSpinIter _ h

theorem waitAcquire_owner (env : Nat → MState → MState) (cas : Nat → Bool)
    (t : Nat) : ∀ (f : Nat) (s s2 : MState),
    waitAcquire env cas t f s = some s2 → s2.owner = t := by
  intro f
  induction f with
  | zero => intro s s2 h; simp [waitAcquire] at h
  | succ n ih =>
    intro s s2 h
    rw [waitAcquire] at h
    by_cases hb : (trySpinLock env cas t s).2.1 = true
    · rw [if_pos hb] at h
      obtain rfl : (trySpinLock env cas t s).1 = s2 := by
        injection h
      exact trySpinLock_true_owner env cas t s hb
    · rw [if_neg hb] at h
      exact ih _ _ h

theorem popContender_owner (s : MState) : (popContender s).1.owner = s.owner := by
  unfold popContender
  dsimp only
  repeat' split
  all_goals rfl

theorem finishUnlock_owner_idEnv : ∀ (fuel : Nat) (s : MState),
    (finishUnlock idEnv fuel s).1.owner = s.owner := by
  intro fuel
  induction fuel with
  | zero => intro s; rfl
  | succ n ih =>
    intro s
    rw [finishUnlock]
    dsimp only
    repeat' split
    all_goals first
      | rfl
      | (rw [ih]; simp [popContender_owner, idEnv])
      | simp [popContender_owner, idEnv]

theorem unlockSlow_owner_idEnv (fuel : Nat) (s : MState) :
    (unlockSlow idEnv fuel s).1.owner = 0 := by
  unfold unlockSlow
  dsimp only
  repeat' split
  all_goals first
    | rfl
    | (rw [finishUnlock_owner_idEnv]; try rfl)

theorem unlock_owner_of_lockCount_one (fuel : Nat) (s : MState)
    (h : s.lockCount = 1) : (unlock idEnv fuel s).1.owner = 0 := by
  unfold unlock
  dsimp only
  by_cases hr : s.recursive = true
  · rw [if_pos hr]
    rw [if_neg (by omega : ¬ 0 < s.lockCount - 1)]
    exact unlockSlow_owner_idEnv fuel _
  · rw [if_neg hr]
    exact unlockSlow_owner_idEnv fuel s

/-- C3: `Monitor::wait` saves `lockCount` and sets it to 1 before its
internal `unlock` (so that unlock fully releases the monitor, clearing the
owner), and whenever `wait` returns, the caller is the owner again with the
saved original `lockCount` restored. -/
theorem wait_saves_and_restores_lockCount (env : Nat → MState → MState)
    (cas : Nat → Bool) (s : MState) (t sem nodeAddr N fuel : Nat)
    (ht : t ≠ 0) (hown : s.owner = t)
    (hlock : s.contendersList &&& kLockBit ≠ 0)
    (hN : s.lockCount = N) (hN1 : 1 ≤ N) :
    (waitPrepare s sem nodeAddr).1.lockCount = 1 ∧
    (waitPrepare s sem nodeAddr).2 = N ∧
    (unlock idEnv fuel (waitPrepare s sem nodeAddr).1).1.owner = 0 ∧
    (∀ s', waitModel env cas t sem nodeAddr fuel s = some s' →
      s'.owner = t ∧ s'.lockCount = N) := by
  refine ⟨rfl, hN, unlock_owner_of_lockCount_one fuel _ rfl, ?_⟩
  intro s' hw
  unfold waitModel at hw
  dsimp only at hw
  rcases hpk : waitPark env sem fuel ((unlock env fuel (waitPrepare s sem nodeAddr).1).1)
    with _ | s1
  · rw [hpk] at hw
    simp at hw
  · rw [hpk] at hw
    dsimp only at hw
    rcases hacq : waitAcquire env cas t fuel s1 with _ | s2
    · rw [hacq] at hw
      simp at hw
    · rw [hacq] at hw
      simp only [Option.some_inj] at hw
      subst hw
      exact ⟨waitAcquire_owner env cas t fuel s1 s2 hacq, hN⟩

theorem wait_saves_and_restores_lockCount_witness :
    ∃ s', waitModel waitEnv0 (fun _ => true) 3 2 4 1 waitState0 = some s' ∧
      s'.owner = 3 ∧ s'.lockCount = 5 := by
  have h := (wait_saves_and_restores_lockCount waitEnv0 (fun _ => true) waitState0
    3 2 4 5 1 (by decide) rfl (by decide) rfl (by decide)).2.2.2
  exact ⟨_, rfl, (h _ rfl).1, (h _ rfl).2⟩

theorem lor_one_mod_two (w : Nat) (h : w % 2 = 0) : (w ||| 1) % 2 = 1 := by
  rw [lor_one_of_even w h]
  omega

theorem clearLockBit_mod_two (w : Nat) : clearLockBit w % 2 = 0 := by
  unfold clearLockBit
  omega

theorem tryLock_inv (s : MState) (t : Nat) (c : Bool) (ht : t ≠ 0)
    (h : MonInv s) : MonInv (tryLock s t c).1 := by
  unfold tryLock
  dsimp only
  by_cases hbit : s.contendersList &&& kLockBit ≠ 0
  · rw [if_pos hbit]
    by_cases hro : s.recursive ∧ t = s.owner
    · rw [if_pos hro]
      exact h
    · rw [if_neg hro]
      exact h
  · rw [if_neg hbit]
    have hw : s.contendersList % 2 = 0 := by
      have := and_one_eq_mod s.contendersList
      simp only [kLockBit] at hbit
      omega
    cases c with
    | true =>
      show MonInv { s with contendersList := s.contendersList ||| kLockBit, owner := t, lockCount := 1 }
      refine ⟨?_, h.2.1, h.2.2⟩
      show t ≠ 0 ↔ (s.contendersList ||| kLockBit) % 2 = 1
      simp only [kLockBit]
      rw [lor_one_mod_two s.contendersList hw]
      exact ⟨fun _ => rfl, fun _ => ht⟩
    | false => exact h

theorem popContender_inv (s : MState) (h : MonInv s) : MonInv (popContender s).1 := by
  unfold popContender
  dsimp only
  by_cases h0 : s.contendersList = 0
  · rw [if_pos h0]
    exact h
  · rw [if_neg h0]
    by_cases hb : s.contendersList &&& kLockBit ≠ 0
    · rw [if_pos hb]
      exact h
    · rw [if_neg hb]
      obtain ⟨h1, h2, h3⟩ := h
      have hw : s.contendersList % 2 = 0 := by
        have := and_one_eq_mod s.contendersList
        simp only [kLockBit] at hb
        omega
      have hnext := h3 s.contendersList
      refine ⟨?_, h2, h3⟩
      constructor
      · intro ho
        have ho2 : s.owner ≠ 0 := ho
        have := h1.1 ho2
        omega
      · intro hn
        have hn2 : (s.heap s.contendersList).next % 2 = 1 := hn
        exact absurd hn2 (by omega)

theorem finishUnlock_inv : ∀ (fuel : Nat) (s : MState), MonInv s →
    MonInv (finishUnlock idEnv fuel s).1 := by
  intro fuel
  induction fuel with
  | zero => intro s h; exact h
  | succ n ih =>
    intro s h
    rw [finishUnlock]
    dsimp only
    by_cases h1 : s.onDeck ≠ 0
    · rw [if_pos h1]
      exact h
    · rw [if_neg h1]
      have hp : MonInv (popContender { s with onDeck := kLockBit }).1 :=
        popContender_inv { s with onDeck := kLockBit } h
      by_cases h2 : (if (popContender { s with onDeck := kLockBit }).2 ≠ 0 then
          ((popContender { s with onDeck := kLockBit }).1.heap
            (popContender { s with onDeck := kLockBit }).2).item else 0) ≠ 0
      · rw [if_pos h2]
        exact hp
      · rw [if_neg h2]
        by_cases h3 : (idEnv n { (popContender { s with onDeck := kLockBit }).1 with
              onDeck := (if (popContender { s with onDeck := kLockBit }).2 ≠ 0 then
                ((popContender { s with onDeck := kLockBit }).1.heap
                  (popContender { s with onDeck := kLockBit }).2).item
                else 0) }).contendersList = 0 ∨
            (idEnv n { (popContender { s with onDeck := kLockBit }).1 with
              onDeck := (if (popContender { s with onDeck := kLockBit }).2 ≠ 0 then
                ((popContender { s with onDeck := kLockBit }).1.heap
                  (popContender { s with onDeck := kLockBit }).2).item
                else 0) }).contendersList &&& kLockBit ≠ 0
        · rw [if_pos h3]
          exact hp
        · rw [if_neg h3]
          exact ih _ hp

theorem unlockSlow_inv (fuel : Nat) (s : MState) (h : MonInv s) :
    MonInv (unlockSlow idEnv fuel s).1 := by
  unfold unlockSlow
  dsimp only
  have h2 : MonInv { s with owner := 0, contendersList := clearLockBit s.contendersList } := by
    refine ⟨?_, h.2.1, h.2.2⟩
    have := clearLockBit_mod_two s.contendersList
    constructor
    · intro ho
      exact absurd rfl ho
    · intro hm
      have hm2 : clearLockBit s.contendersList % 2 = 1 := hm
      omega
  by_cases hd : s.onDeck ≠ 0
  · rw [if_pos hd]
    split <;> exact h2
  · rw [if_neg hd]
    split
    · exact h2
    · exact finishUnlock_inv fuel _ h2

theorem unlock_inv (fuel : Nat) (s : MState) (h : MonInv s) :
    MonInv (unlock idEnv fuel s).1 := by
  unfold unlock
  dsimp only
  by_cases hr : s.recursive = true
  · rw [if_pos hr]
    split
    · exact h
    · exact unlockSlow_inv fuel _ h
  · rw [if_neg hr]
    exact unlockSlow_inv fuel s h

theorem notify_owner (s : MState) : (notify s).owner = s.owner := by
  unfold notify
  dsimp only
  split <;> rfl

theorem notify_inv (s : MState) (hown : s.owner ≠ 0) (h : MonInv s) :
    MonInv (notify s) := by
  unfold notify
  dsimp only
  by_cases h0 : s.waitersList = 0
  · rw [if_pos h0]
    exact h
  · rw [if_neg h0]
    obtain ⟨h1, h2, h3⟩ := h
    refine ⟨?_, h3 s.waitersList, ?_⟩
    · simp only [kLockBit]
      rw [lor_one_mod_two s.waitersList h2]
      exact ⟨fun _ => rfl, fun _ => hown⟩
    · intro a
      dsimp only
      by_cases ha : a = s.waitersList
      · subst ha
        rw [Function.update_same]
        exact clearLockBit_mod_two s.contendersList
      · rw [Function.update_noteq ha]
        exact h3 a

theorem notifyAll_inv : ∀ (fuel : Nat) (s s' : MState),
    notifyAll fuel s = some s' → s.owner ≠ 0 → MonInv s → MonInv s' := by
  intro fuel
  induction fuel with
  | zero =>
    intro s s' heq hown h
    unfold notifyAll at heq
    split at heq
    · obtain rfl : s = s' := by injection heq
      exact h
    · exact absurd heq (by simp)
  | succ n ih =>
    intro s s' heq hown h
    rw [notifyAll] at heq
    split at heq
    · obtain rfl : s = s' := by injection heq
      exact h
    · exact ih (notify s) s' heq (by rw [notify_owner]; exact hown)
        (notify_inv s hown h)

theorem step_inv {s s' : MState} (hs : Step s s') (h : MonInv s) : MonInv s' := by
  match hs with
  | Step.tryLockStep _ t casOk ht => exact tryLock_inv s t casOk ht h
  | Step.unlockStep _ t fuel ht hown hlock => exact unlock_inv fuel s h
  | Step.notifyStep _ t ht hown hlock =>
    exact notify_inv s (by rw [hown]; exact ht) h
  | Step.notifyAllStep _ _ t fuel ht hown hlock heq =>
    exact notifyAll_inv fuel s s' heq (by rw [hown]; exact ht) h
  | Step.waitParkStep _ t sem nodeAddr fuel ht hown hlock hna hne =>
    refine unlock_inv fuel _ ?_
    refine ⟨h.1, hne, ?_⟩
    intro a
    dsimp only [waitPrepare]
    by_cases ha : a = nodeAddr
    · subst ha
      rw [Function.update_same]
      exact h.2.1
    · rw [Function.update_noteq ha]
      exact h.2.2 a
  | Step.waitResumeStep _ t saved ht hown => exact h

theorem reach_inv {s : MState} (h : Reach s) : MonInv s := by
  induction h with
  | init recursive =>
    exact ⟨by simp [initMonitor], by simp [initMonitor], fun a => by simp [initMonitor]⟩
  | step hr hs ih => exact step_inv hs ih

/-- C6: in every state reachable from a freshly constructed monitor by
complete monitor operations, the owner field is non-NIL if and only if the
LOCK bit of the lock word is set. -/
theorem owner_iff_lockbit (s : MState) (h : Reach s) :
    s.owner ≠ 0 ↔ s.contendersList &&& kLockBit ≠ 0 := by
  have hi := (reach_inv h).1
  have hm := and_one_eq_mod s.contendersList
  simp only [kLockBit]
  constructor
  · intro ho
    have := hi.1 ho
    omega
  · intro hb
    exact hi.2 (by omega)

theorem owner_iff_lockbit_witness :
    (tryLock (initMonitor false) 3 true).1.owner ≠ 0 ↔
      (tryLock (initMonitor false) 3 true).1.contendersList &&& kLockBit ≠ 0 :=
  owner_iff_lockbit _
    (Reach.step (Reach.init false) (Step.tryLockStep (initMonitor false) 3 true (by decide)))

/-- C8 counterexample: in a full-budget run of `trySpinLock` against a lock
that stays held (no interference, so every iteration sees the word locked),
the loop issues 51 spin-pause hints and 4 yields — not 50 and 5 as the claim
states (`s >= kMaxSpinIter - kMaxReadSpinIter` is true for the 51 counters 55
down to 5) — and returns false. -/
theorem trySpinLock_claim_counterexample :
    (trySpinLock idEnv (fun _ => true) 4 spinState0).2.2.count Event.pause = 51 ∧
    (trySpinLock idEnv (fun _ => true) 4 spinState0).2.2.count Event.osYield = 4 ∧
    (trySpinLock idEnv (fun _ => true) 4 spinState0).2.1 = false := by
  refine ⟨?_, ?_, ?_⟩ <;> decide

theorem fullSpinEvents_succ (k : Nat) :
    (if k + 1 ≥ kMaxSpinIter - kMaxReadSpinIter then Event.pause
      else Event.osYield) :: fullSpinEvents k = fullSpinEvents (k + 1) := by
  simp only [kMaxSpinIter, kMaxReadSpinIter, fullSpinEvents]
  by_cases h : k + 1 ≥ 55 - 50
  · rw [if_pos h]
    have h4 : min 4 k = 4 := by omega
    have h4b : min 4 (k + 1) = 4 := by omega
    have hk : k + 1 - 4 = (k - 4) + 1 := by omega
    rw [h4, h4b, hk, List.replicate_succ]
    rfl
  · rw [if_neg h]
    have h0 : k - 4 = 0 := by omega
    have h0b : k + 1 - 4 = 0 := by omega
    have hm : min 4 k = k := by omega
    have hmb : min 4 (k + 1) = k + 1 := by omega
    rw [h0, h0b, hm, hmb]
    simp [List.replicate_succ]

theorem spinLoop_events_prefix (env : Nat → MState → MState) (cas : Nat → Bool)
    (t : Nat) : ∀ (k : Nat) (s : MState),
    (spinLoop env cas t k s).2.2 <+: fullSpinEvents k := by
  intro k
  induction k with
  | zero => intro s; exact List.nil_prefix
  | succ n ih =>
    intro s
    rw [spinLoop]
    dsimp only
    rw [← fullSpinEvents_succ n]
    by_cases hb : (env (n + 1) s).contendersList &&& kLockBit = 0
    · rw [if_pos hb]
      exact ⟨fullSpinEvents n, rfl⟩
    · rw [if_neg hb]
      obtain ⟨tail, htail⟩ := ih (env (n + 1) s)
      exact ⟨tail, by rw [List.cons_append, htail]⟩

theorem spinLoop_locked (env : Nat → MState → MState) (cas : Nat → Bool)
    (t : Nat) (henv : ∀ k x, (env k x).contendersList &&& kLockBit ≠ 0) :
    ∀ (k : Nat) (s : MState),
    (spinLoop env cas t k s).2.1 = false ∧
    (spinLoop env cas t k s).2.2 = fullSpinEvents k := by
  intro k
  induction k with
  | zero => intro s; exact ⟨rfl, rfl⟩
  | succ n ih =>
    intro s
    rw [spinLoop]
    dsimp only
    rw [if_neg (by exact fun hc => henv (n + 1) s hc)]
    refine ⟨(ih (env (n + 1) s)).1, ?_⟩
    rw [← fullSpinEvents_succ n, (ih (env (n + 1) s)).2]

/-- C8 (amended): `trySpinLock` first tries `tryLock` and returns at once on
success.  Otherwise it runs up to `kMaxSpinIter` = 55 spin iterations, of
which the first 51 (loop counters 55 down to 5, i.e. counter ≥
`kMaxSpinIter - kMaxReadSpinIter`) issue the SMT spin-pause hint and the
remaining 4 yield to the OS scheduler; after each hint, whenever the lock
word shows unlocked it attempts `tryLock` and returns that attempt's result
immediately (so false can also be returned before the budget is exhausted,
when such an attempt fails); `true` is returned only on an acquisition by the
calling thread, and if the lock word stays locked at every check the full
budget of 51 pauses and 4 yields is spent and false is returned. -/
theorem trySpinLock_amended (env : Nat → MState → MState) (cas : Nat → Bool)
    (t : Nat) (s : MState) :
    ((tryLock s t (cas 0)).2 = true →
      trySpinLock env cas t s = ((tryLock s t (cas 0)).1, true, [])) ∧
    ((trySpinLock env cas t s).2.2 <+:
      (List.replicate 51 Event.pause ++ List.replicate 4 Event.osYield)) ∧
    ((trySpinLock env cas t s).2.1 = true → (trySpinLock env cas t s).1.owner = t) ∧
    ((∀ k x, (env k x).contendersList &&& kLockBit ≠ 0) →
      (tryLock s t (cas 0)).2 = false →
      (trySpinLock env cas t s).2.1 = false ∧
      (trySpinLock env cas t s).2.2 =
        List.replicate 51 Event.pause ++ List.replicate 4 Event.osYield) := by
  have hfull : List.replicate 51 Event.pause ++ List.replicate 4 Event.osYield =
      fullSpinEvents kMaxSpinIter := rfl
  refine ⟨?_, ?_, ?_, ?_⟩
  · intro h0
    unfold trySpinLock
    rw [if_pos h0]
  · unfold trySpinLock
    by_cases h0 : (tryLock s t (cas 0)).2 = true
    · rw [if_pos h0]
      exact List.nil_prefix
    · rw [if_neg h0, hfull]
      exact spinLoop_events_prefix env cas t kMaxSpinIter _
  · exact trySpinLock_true_owner env cas t s
  · intro henv h0
    unfold trySpinLock
    rw [if_neg (by rw [h0]; exact Bool.false_ne_true)]
    rw [hfull]
    exact spinLoop_locked env cas t henv kMaxSpinIter _

theorem trySpinLock_amended_witness :
    (trySpinLock envLocked (fun _ => true) 4 spinState0).2.1 = false ∧
    (trySpinLock envLocked (fun _ => true) 4 spinState0).2.2 =
      List.replicate 51 Event.pause ++ List.replicate 4 Event.osYield := by
  have h := (trySpinLock_amended envLocked (fun _ => true) 4 spinState0).2.2.2
  exact h (by intro k x; simp [envLocked, kLockBit]) (by decide)
